import Mathlib

/-!
Verification of the streamed-response buffering and smart message-splitting
engine of the unreasonable-llama-discord bot (`unllamabot/llama_backend.py`).

Python strings are embedded as `List Char`; the splitter (`split_message`,
`find_last_occurence`) and the stream-buffer coordinator
(`get_buffered_llm_response`) are translated function-for-function, with
Python's `str.rfind`, `str.find`, `str.count`, slicing (including negative
indices), `str.isspace` and `str.rstrip` modelled explicitly.
-/

namespace Unllamabot

/-- The backtick character, written via its code point. -/
def btick : Char := Char.ofNat 96

/-- The triple-backtick code-fence marker. -/
def fenceMarker : List Char := [btick, btick, btick]

/-- Whitespace test for a single character (the ASCII cases of Python's
`str.isspace`). -/
def isSpaceChar (c : Char) : Bool :=
  c = ' ' || c = '\t' || c = '\n' || c = '\r' || c = Char.ofNat 11 || c = Char.ofNat 12

/-- Python `str.isspace`: nonempty and all characters whitespace. -/
def pyIsspace (s : List Char) : Bool :=
  !s.isEmpty && s.all isSpaceChar

/-- Python `str.rstrip()`: remove trailing whitespace. -/
def pyRstrip (s : List Char) : List Char :=
  (s.reverse.dropWhile isSpaceChar).reverse

/-- `matchesAt s sub i`: the substring `sub` occurs in `s` starting at index `i`. -/
def matchesAt (s sub : List Char) (i : Nat) : Bool :=
  (s.drop i).take sub.length == sub

/-- The highest index at which `sub` occurs in `s`, if any
(Python `str.rfind`, with `none` for `-1`). -/
def rfindNat (s sub : List Char) : Option Nat :=
  ((List.range (s.length + 1)).filter (fun i => matchesAt s sub i)).getLast?

/-- Python `str.rfind`: highest occurrence index, `-1` when absent. -/
def pyRfind (s sub : List Char) : Int :=
  match rfindNat s sub with
  | some i => (i : Int)
  | none => -1

/-- Python `str.find(sub, start)`: lowest occurrence index that is `≥ start`
(negative `start` counts from the end, clamped at `0`); `-1` when absent. -/
def pyFindFrom (s sub : List Char) (start : Int) : Int :=
  let st : Nat := if start < 0 then (start + s.length).toNat else start.toNat
  match ((List.range (s.length + 1)).filter
      (fun i => decide (st ≤ i) && matchesAt s sub i)).head? with
  | some i => (i : Int)
  | none => -1

/-- Normalize one bound of a Python slice `s[a:b]` to a `Nat` index. -/
def sliceIdx (n : Nat) (i : Int) : Nat :=
  if i < 0 then (i + n).toNat else min i.toNat n

/-- Python slice `s[a:b]`, including negative-index semantics. -/
def pySlice (s : List Char) (a b : Int) : List Char :=
  (s.take (sliceIdx s.length b)).drop (sliceIdx s.length a)

/-- Python `str.count("```")`: number of non-overlapping occurrences of the
fence marker, scanning left to right. -/
def count3 : List Char → Nat
  | a :: b :: c :: rest =>
    if a = btick ∧ b = btick ∧ c = btick then count3 rest + 1
    else count3 (b :: c :: rest)
  | _ => 0

/-- `find_last_occurence` from `llama_backend.py`: try each search string in
order and return the first whose last occurrence index is positive. -/
def find_last_occurence (input : List Char) (strings : List (List Char)) :
    Option (Nat × List Char) :=
  match strings with
  | [] => none
  | sub :: rest =>
    match rfindNat input sub with
    | some i => if 0 < i then some (i, sub) else find_last_occurence input rest
    | none => find_last_occurence input rest

/-- The boundary-refinement stage of `split_message`: search the hard-cut head
for the last separator (paragraph, sentence end, word) and move the text after
it into the tail. -/
def refineSplit (first0 second0 : List Char) : List Char × List Char :=
  match find_last_occurence first0 [['\n'], ['.', ' '], [' ']] with
  | some (split_position, separator) =>
    (first0.take (if pyIsspace separator then split_position
                  else split_position + (pyRstrip separator).length),
     (first0.drop (split_position + separator.length)) ++ second0)
  | none => (first0, second0)

/-- The code-fence rebalancing stage of `split_message`: if the first part has
an odd fence count, close the block there and reopen it (with the language tag
read after the last fence marker) at the front of the second part. -/
def fenceRebalance (first second : List Char) : List Char × List Char :=
  if count3 first % 2 ≠ 0 then
    let last_marker := pyRfind first fenceMarker
    let last_marker_ending := pyFindFrom first ['\n'] last_marker
    let last_marker_slice := pySlice first last_marker last_marker_ending
    let starting_marker :=
      if 3 < last_marker_slice.length then fenceMarker ++ last_marker_slice.drop 3
      else fenceMarker
    (first ++ '\n' :: fenceMarker, starting_marker ++ '\n' :: second)
  else (first, second)

/-- `split_message` from `llama_backend.py`: hard cut at `threshold`, refine at
the last separator, then rebalance code fences. -/
def split_message (message : List Char) (threshold : Nat) :
    List Char × Option (List Char) :=
  if message.length < threshold then (message, none)
  else
    let p := refineSplit (message.take threshold) (message.drop threshold)
    let q := fenceRebalance p.1 p.2
    (q.1, some q.2)

/-- The language tag the rebalancing stage reads after the last fence marker of
`first` (empty when the marker slice is no longer than the marker itself). -/
def languageTag (first : List Char) : List Char :=
  (pySlice first (pyRfind first fenceMarker)
    (pyFindFrom first ['\n'] (pyRfind first fenceMarker))).drop 3

/-- One streamed chunk from the model transport. -/
structure PyChunk where
  content : List Char
  stop : Bool
  deriving DecidableEq

/-- The `LlamaResponseChunk` events emitted by `get_buffered_llm_response`. -/
structure LlamaResponseChunk where
  message : List Char
  chunk : Option (List Char)
  response : List Char
  end_of_message : Bool
  end_of_response : Bool
  new_message : Bool
  deriving DecidableEq

/-- The loop body of `get_buffered_llm_response` for one incoming chunk:
append to the response and message accumulators, split, and emit either one
event (no split) or a finalize/open pair (split).  Returns the emitted events
together with the new `message` and `response` accumulator values. -/
def processChunk (m r : List Char) (ck : PyChunk) (t : Nat) :
    List LlamaResponseChunk × List Char × List Char :=
  let r' := r ++ ck.content
  let m' := m ++ ck.content
  match split_message m' t with
  | (cur, none) =>
    ([{ message := cur, chunk := some ck.content, response := r',
        end_of_message := false, end_of_response := ck.stop, new_message := false }],
     m', r')
  | (cur, some nxt) =>
    ([{ message := cur, chunk := none, response := r',
        end_of_message := true, end_of_response := false, new_message := false },
      { message := nxt, chunk := some ck.content, response := r',
        end_of_message := false, end_of_response := ck.stop, new_message := true }],
     nxt, r')

/-- Run the coordinator loop over a list of chunks from accumulator state
`(m, r)`, returning all emitted events and the final accumulator state. -/
def runChunks : List PyChunk → List Char → List Char → Nat →
    List LlamaResponseChunk × List Char × List Char
  | [], m, r, _ => ([], m, r)
  | ck :: rest, m, r, t =>
    let s := processChunk m r ck t
    let s2 := runChunks rest s.2.1 s.2.2 t
    (s.1 ++ s2.1, s2.2.1, s2.2.2)

/-- `get_buffered_llm_response` from `llama_backend.py`, as a function from the
chunk sequence to the emitted event sequence. -/
def get_buffered_llm_response (chunks : List PyChunk) (t : Nat) :
    List LlamaResponseChunk :=
  (runChunks chunks [] [] t).1

/-- The open-segment buffer (`message` variable) after the coordinator has
processed all chunks. -/
def bufferState (chunks : List PyChunk) (t : Nat) : List Char :=
  (runChunks chunks [] [] t).2.1

/-! ### Basic lemmas about the searching primitives -/

lemma mem_of_getLast?_eq {α : Type} {l : List α} {a : α}
    (h : l.getLast? = some a) : a ∈ l := by
  obtain ⟨hne, heq⟩ := List.mem_getLast?_eq_getLast (l := l) (x := a) (by simp [h])
  subst heq
  exact List.getLast_mem hne

lemma mem_of_head?_eq {α : Type} {l : List α} {a : α}
    (h : l.head? = some a) : a ∈ l := by
  cases l with
  | nil => simp at h
  | cons x xs =>
    simp only [List.head?_cons, Option.some.injEq] at h
    subst h
    exact List.mem_cons_self x xs

lemma matchesAt_iff {s sub : List Char} {i : Nat} :
    matchesAt s sub i = true ↔ (s.drop i).take sub.length = sub := by
  simp [matchesAt]

lemma matchesAt_bound {s sub : List Char} {i : Nat}
    (h : matchesAt s sub i = true) (hs : sub ≠ []) :
    i + sub.length ≤ s.length := by
  rw [matchesAt_iff] at h
  have hlen := congrArg List.length h
  rw [List.length_take, List.length_drop] at hlen
  have hpos : 0 < sub.length := List.length_pos.mpr hs
  omega

lemma matchesAt_decomp {s sub : List Char} {i : Nat}
    (h : matchesAt s sub i = true) :
    s = s.take i ++ sub ++ s.drop (i + sub.length) := by
  rw [matchesAt_iff] at h
  conv_lhs => rw [← List.take_append_drop i s]
  conv_lhs => rw [← List.take_append_drop sub.length (s.drop i)]
  rw [h, List.drop_drop, List.append_assoc]

lemma rfindNat_matchesAt {s sub : List Char} {i : Nat}
    (h : rfindNat s sub = some i) : matchesAt s sub i = true := by
  have hmem := mem_of_getLast?_eq h
  exact (List.mem_filter.mp hmem).2

lemma rfindNat_le {s sub : List Char} {i : Nat}
    (h : rfindNat s sub = some i) : i ≤ s.length := by
  have hmem := mem_of_getLast?_eq h
  have h1 := (List.mem_filter.mp hmem).1
  have h2 := List.mem_range.mp h1
  omega

lemma getLast?_pairwise_le {l : List Nat} (hp : l.Pairwise (· < ·)) {a : Nat}
    (h : l.getLast? = some a) : ∀ b ∈ l, b ≤ a := by
  induction l with
  | nil => simp at h
  | cons x xs ih =>
    intro b hb
    cases xs with
    | nil =>
      simp at h hb
      omega
    | cons y ys =>
      rw [List.getLast?_cons_cons] at h
      rcases List.mem_cons.mp hb with hbx | hbtail
      · subst hbx
        have ha : a ∈ y :: ys := mem_of_getLast?_eq h
        have := (List.pairwise_cons.mp hp).1 a ha
        omega
      · exact ih (List.pairwise_cons.mp hp).2 h b hbtail

lemma rfindNat_last {s sub : List Char} {i j : Nat} (hs : sub ≠ [])
    (h : rfindNat s sub = some i) (hj : i < j) :
    matchesAt s sub j = false := by
  by_contra hcon
  rw [Bool.not_eq_false] at hcon
  have hjle : j ≤ s.length := by
    have := matchesAt_bound hcon hs
    have hpos : 0 < sub.length := List.length_pos.mpr hs
    omega
  have hjmem : j ∈ (List.range (s.length + 1)).filter (fun k => matchesAt s sub k) := by
    rw [List.mem_filter]
    exact ⟨List.mem_range.mpr (by omega), hcon⟩
  have hpair : ((List.range (s.length + 1)).filter
      (fun k => matchesAt s sub k)).Pairwise (· < ·) :=
    List.Pairwise.filter _ (List.pairwise_lt_range _)
  have := getLast?_pairwise_le hpair h j hjmem
  omega

lemma flo_spec {input : List Char} {strings : List (List Char)} {p : Nat}
    {sep : List Char}
    (h : find_last_occurence input strings = some (p, sep)) :
    sep ∈ strings ∧ rfindNat input sep = some p ∧ 0 < p := by
  induction strings with
  | nil => simp [find_last_occurence] at h
  | cons sub rest ih =>
    rw [find_last_occurence] at h
    cases hr : rfindNat input sub with
    | none =>
      simp only [hr] at h
      obtain ⟨h1, h2, h3⟩ := ih h
      exact ⟨List.mem_cons_of_mem _ h1, h2, h3⟩
    | some i =>
      simp only [hr] at h
      by_cases hi : 0 < i
      · rw [if_pos hi] at h
        simp only [Option.some.injEq, Prod.mk.injEq] at h
        obtain ⟨hp, hsep⟩ := h
        subst hp; subst hsep
        exact ⟨List.mem_cons_self _ _, hr, hi⟩
      · rw [if_neg hi] at h
        obtain ⟨h1, h2, h3⟩ := ih h
        exact ⟨List.mem_cons_of_mem _ h1, h2, h3⟩

/-! ### Shape lemmas for the splitter stages -/

lemma split_message_none {msg : List Char} {t : Nat} {c : List Char}
    (h : split_message msg t = (c, none)) : c = msg ∧ msg.length < t := by
  by_cases hlt : msg.length < t
  · rw [split_message, if_pos hlt] at h
    simp only [Prod.mk.injEq] at h
    exact ⟨h.1.symm, hlt⟩
  · rw [split_message, if_neg hlt] at h
    simp at h

lemma split_message_of_le {msg : List Char} {t : Nat} (h : t ≤ msg.length) :
    split_message msg t =
      ((fenceRebalance (refineSplit (msg.take t) (msg.drop t)).1
          (refineSplit (msg.take t) (msg.drop t)).2).1,
       some (fenceRebalance (refineSplit (msg.take t) (msg.drop t)).1
          (refineSplit (msg.take t) (msg.drop t)).2).2) := by
  rw [split_message, if_neg (by omega)]

lemma refineSplit_of_none {f0 s0 : List Char}
    (h : find_last_occurence f0 [['\n'], ['.', ' '], [' ']] = none) :
    refineSplit f0 s0 = (f0, s0) := by
  simp only [refineSplit, h]

lemma refineSplit_of_some {f0 s0 : List Char} {p : Nat} {sep : List Char}
    (h : find_last_occurence f0 [['\n'], ['.', ' '], [' ']] = some (p, sep)) :
    refineSplit f0 s0 =
      (f0.take (if pyIsspace sep then p else p + (pyRstrip sep).length),
       f0.drop (p + sep.length) ++ s0) := by
  simp only [refineSplit, h]

lemma fenceRebalance_even {f s : List Char} (h : count3 f % 2 = 0) :
    fenceRebalance f s = (f, s) := by
  rw [fenceRebalance, if_neg]
  simp [h]

lemma fenceRebalance_odd {f s : List Char} (h : count3 f % 2 = 1) :
    fenceRebalance f s =
      (f ++ '\n' :: fenceMarker, (fenceMarker ++ languageTag f) ++ '\n' :: s) := by
  rw [fenceRebalance, if_pos (by omega)]
  simp only [Prod.mk.injEq, true_and]
  simp only [languageTag]
  by_cases hlen : 3 < (pySlice f (pyRfind f fenceMarker)
      (pyFindFrom f ['\n'] (pyRfind f fenceMarker))).length
  · rw [if_pos hlen]
  · rw [if_neg hlen]
    rw [List.drop_eq_nil_of_le (by omega), List.append_nil]

/-! ### Lemmas about `count3` -/

lemma count3_nil : count3 [] = 0 := rfl

lemma count3_one (a : Char) : count3 [a] = 0 := rfl

lemma count3_two (a b : Char) : count3 [a, b] = 0 := rfl

lemma count3_cons3 (a b c : Char) (rest : List Char) :
    count3 (a :: b :: c :: rest) =
      if a = btick ∧ b = btick ∧ c = btick then count3 rest + 1
      else count3 (b :: c :: rest) := rfl

lemma newline_ne_btick : '\n' ≠ btick := by decide

/-- Appending the closing fence `"\n```"` increases the fence count by
exactly one: the newline separator prevents any merge with trailing
backticks. -/
lemma count3_append_close (f : List Char) :
    count3 (f ++ '\n' :: fenceMarker) = count3 f + 1 := by
  suffices H : ∀ n (g : List Char), g.length ≤ n →
      count3 (g ++ '\n' :: fenceMarker) = count3 g + 1 from
    H f.length f le_rfl
  intro n
  induction n with
  | zero =>
    intro g hg
    have : g = [] := by
      cases g with
      | nil => rfl
      | cons x xs => simp at hg
    subst this
    decide
  | succ n ih =>
    intro g hg
    match g with
    | [] => decide
    | [a] =>
      show count3 (a :: '\n' :: btick :: btick :: [btick]) = count3 [a] + 1
      rw [count3_cons3, if_neg (fun hc => absurd hc.2.1 newline_ne_btick),
        count3_one]
      decide
    | [a, b] =>
      show count3 (a :: b :: '\n' :: btick :: btick :: [btick]) = count3 [a, b] + 1
      rw [count3_cons3, if_neg (fun hc => absurd hc.2.2 newline_ne_btick),
        count3_cons3, if_neg (fun hc => absurd hc.2.1 newline_ne_btick),
        count3_two]
      decide
    | a :: b :: c :: rest =>
      show count3 (a :: b :: c :: (rest ++ '\n' :: fenceMarker)) =
        count3 (a :: b :: c :: rest) + 1
      rw [count3_cons3, count3_cons3]
      simp only [List.length_cons] at hg
      by_cases hc : a = btick ∧ b = btick ∧ c = btick
      · rw [if_pos hc, if_pos hc, ih rest (by omega)]
      · rw [if_neg hc, if_neg hc]
        exact ih (b :: c :: rest) (by simp; omega)

/-! ### Reconstruction across the refinement stage -/

/-- The boundary refinement preserves the text up to one dropped whitespace
character: the parts rejoin to the original once the separator's whitespace
(`""` when no separator was found, `" "` or `"\n"` otherwise) is reinserted. -/
lemma refineSplit_reconstruction (f0 s0 : List Char) :
    ∃ w, (w = ([] : List Char) ∨ w = [' '] ∨ w = ['\n']) ∧
      (refineSplit f0 s0).1 ++ w ++ (refineSplit f0 s0).2 = f0 ++ s0 := by
  cases hflo : find_last_occurence f0 [['\n'], ['.', ' '], [' ']] with
  | none =>
    refine ⟨[], Or.inl rfl, ?_⟩
    rw [refineSplit_of_none hflo]
    simp
  | some ps =>
    obtain ⟨p, sep⟩ := ps
    obtain ⟨hmem, hrf, hp⟩ := flo_spec hflo
    have hmatch := rfindNat_matchesAt hrf
    rw [refineSplit_of_some hflo]
    simp only [List.mem_cons, List.mem_singleton, List.not_mem_nil, or_false] at hmem
    rcases hmem with hsep | hsep | hsep
    · -- separator "\n"
      subst hsep
      have hd := matchesAt_decomp hmatch
      simp only [List.length_singleton] at hd
      refine ⟨['\n'], Or.inr (Or.inr rfl), ?_⟩
      rw [show pyIsspace ['\n'] = true from rfl, if_pos rfl]
      simp only [List.length_singleton]
      conv_rhs => rw [show f0 = f0.take p ++ ['\n'] ++ f0.drop (p + 1) from hd]
      simp [List.append_assoc]
    · -- separator ". "
      subst hsep
      have hd := matchesAt_decomp hmatch
      have hbnd := matchesAt_bound hmatch (by decide)
      simp only [List.length_nil, List.length_cons, Nat.zero_add] at hd hbnd
      have hA : (f0.take p).length = p := by
        rw [List.length_take]
        omega
      have htake : f0.take (p + 1) = f0.take p ++ ['.'] := by
        conv_lhs => rw [show f0 = f0.take p ++ ['.', ' '] ++ f0.drop (p + 2) from hd]
        rw [List.append_assoc, List.take_append_eq_append_take, hA,
          List.take_of_length_le (by omega)]
        norm_num
      refine ⟨[' '], Or.inr (Or.inl rfl), ?_⟩
      rw [show pyIsspace ['.', ' '] = false from rfl, if_neg (by simp),
        show pyRstrip ['.', ' '] = ['.'] from rfl]
      simp only [List.length_nil, List.length_cons, Nat.zero_add]
      rw [htake]
      conv_rhs => rw [show f0 = f0.take p ++ ['.', ' '] ++ f0.drop (p + 2) from hd]
      simp [List.append_assoc]
    · -- separator " "
      subst hsep
      have hd := matchesAt_decomp hmatch
      simp only [List.length_singleton] at hd
      refine ⟨[' '], Or.inr (Or.inl rfl), ?_⟩
      rw [show pyIsspace [' '] = true from rfl, if_pos rfl]
      simp only [List.length_singleton]
      conv_rhs => rw [show f0 = f0.take p ++ [' '] ++ f0.drop (p + 1) from hd]
      simp [List.append_assoc]

/-! ### Claim C1 — lossless reconstruction of the splitter -/

/-- C1, counterexample.  `split_message "ab cd" 4` returns `("ab", "cd")`
with no fence insertion at all (both parts are fence-free), yet the
concatenation of the two parts is `"abcd" ≠ "ab cd"`: the space at the split
boundary is dropped, so reconstruction is not lossless. -/
theorem c1_counterexample :
    split_message ("ab cd".toList) 4 = ("ab".toList, some ("cd".toList)) ∧
    count3 ("ab".toList) = 0 ∧ count3 ("cd".toList) = 0 ∧
    "ab".toList ++ "cd".toList ≠ "ab cd".toList := by
  decide

/-- C1, amended: for every string and every limit at which a split occurs,
the two returned components — after removing the closing fence appended to
the first and the opening fence (with language tag and newline) prepended to
the second during rebalancing — reproduce the original string once a single
dropped whitespace character (`""`, `" "` or `"\n"`) is reinserted at the
junction. -/
theorem c1_amended (message : List Char) (threshold : Nat)
    (h : threshold ≤ message.length) :
    ∃ f s w, (w = ([] : List Char) ∨ w = [' '] ∨ w = ['\n']) ∧
      f ++ w ++ s = message ∧
      (split_message message threshold = (f, some s) ∨
       ∃ lang, split_message message threshold =
         (f ++ '\n' :: fenceMarker, some ((fenceMarker ++ lang) ++ '\n' :: s))) := by
  obtain ⟨w, hw, hrec⟩ :=
    refineSplit_reconstruction (message.take threshold) (message.drop threshold)
  rw [List.append_assoc, List.take_append_drop] at hrec
  have hsm := split_message_of_le h
  refine ⟨(refineSplit (message.take threshold) (message.drop threshold)).1,
    (refineSplit (message.take threshold) (message.drop threshold)).2, w, hw,
    by rw [← List.append_assoc] at hrec; exact hrec, ?_⟩
  by_cases hpar :
      count3 (refineSplit (message.take threshold) (message.drop threshold)).1 % 2 = 0
  · left
    rw [hsm, fenceRebalance_even hpar]
  · right
    have hpar1 :
        count3 (refineSplit (message.take threshold) (message.drop threshold)).1 % 2 = 1 := by
      omega
    exact ⟨languageTag (refineSplit (message.take threshold) (message.drop threshold)).1,
      by rw [hsm, fenceRebalance_odd hpar1]⟩

/-- C1 witness: the amended reconstruction applied at `("ab cd", 4)`. -/
theorem c1_amended_witness :
    4 ≤ ("ab cd".toList).length ∧
    ∃ f s w, (w = ([] : List Char) ∨ w = [' '] ∨ w = ['\n']) ∧
      f ++ w ++ s = "ab cd".toList ∧
      (split_message ("ab cd".toList) 4 = (f, some s) ∨
       ∃ lang, split_message ("ab cd".toList) 4 =
         (f ++ '\n' :: fenceMarker, some ((fenceMarker ++ lang) ++ '\n' :: s))) :=
  ⟨by decide, c1_amended ("ab cd".toList) 4 (by decide)⟩

/-! ### Claim C5 — fence parity -/

/-- C5, counterexample.  `"ab```cd```"` has a balanced (even) fence count,
but splitting at limit `4` cuts through the second marker: the returned
second component `"`cd```"` contains an odd number of fence markers. -/
theorem c5_counterexample :
    count3 ("ab```cd```".toList) % 2 = 0 ∧
    split_message ("ab```cd```".toList) 4 =
      ("ab``".toList, some ("`cd```".toList)) ∧
    count3 ("`cd```".toList) % 2 = 1 := by
  decide

/-- C5, amended: when the input has a balanced (even) fence count, the FIRST
component returned by `split_message` always has an even fence count (the
rebalancing stage enforces this); the second component's parity is not
guaranteed (see the counterexample, where a marker straddles the cut). -/
theorem c5_amended (message : List Char) (threshold : Nat)
    (hbal : count3 message % 2 = 0) :
    count3 (split_message message threshold).1 % 2 = 0 := by
  by_cases hlt : message.length < threshold
  · rw [split_message, if_pos hlt]
    exact hbal
  · rw [split_message_of_le (by omega)]
    by_cases hpar :
        count3 (refineSplit (message.take threshold) (message.drop threshold)).1 % 2 = 0
    · rw [fenceRebalance_even hpar]
      exact hpar
    · rw [fenceRebalance_odd (by omega)]
      show count3 ((refineSplit (message.take threshold) (message.drop threshold)).1
        ++ '\n' :: fenceMarker) % 2 = 0
      rw [count3_append_close]
      omega

/-- C5 witness: the amended parity statement at a balanced input whose split
actually triggers fence rebalancing. -/
theorem c5_amended_witness :
    count3 ("a\n```py\nb\ncode``` t".toList) % 2 = 0 ∧
    count3 (split_message ("a\n```py\nb\ncode``` t".toList) 14).1 % 2 = 0 :=
  ⟨by decide, c5_amended ("a\n```py\nb\ncode``` t".toList) 14 (by decide)⟩

/-! ### Claim C6 — length bound of the splitter -/

/-- C6, confirmed: the first component has length at most `threshold` when no
rebalancing fence is appended, and is otherwise exactly a string of length at
most `threshold` followed by the inserted closing fence `"\n```"`. -/
theorem c6 (message : List Char) (threshold : Nat) (h : 0 < threshold) :
    (split_message message threshold).1.length ≤ threshold ∨
    ∃ f, (split_message message threshold).1 = f ++ '\n' :: fenceMarker ∧
      f.length ≤ threshold := by
  by_cases hlt : message.length < threshold
  · left
    rw [split_message, if_pos hlt]
    show message.length ≤ threshold
    omega
  · rw [split_message_of_le (by omega)]
    have hf1 : (refineSplit (message.take threshold) (message.drop threshold)).1.length
        ≤ threshold := by
      cases hflo : find_last_occurence (message.take threshold)
          [['\n'], ['.', ' '], [' ']] with
      | none =>
        rw [refineSplit_of_none hflo]
        simp [List.length_take]
      | some ps =>
        obtain ⟨p, sep⟩ := ps
        rw [refineSplit_of_some hflo]
        show ((message.take threshold).take _).length ≤ threshold
        rw [List.length_take, List.length_take]
        omega
    by_cases hpar :
        count3 (refineSplit (message.take threshold) (message.drop threshold)).1 % 2 = 0
    · left
      rw [fenceRebalance_even hpar]
      exact hf1
    · right
      rw [fenceRebalance_odd (by omega)]
      exact ⟨(refineSplit (message.take threshold) (message.drop threshold)).1, rfl, hf1⟩

/-- C6 witness: the length bound applied at `("ab cd", 4)`. -/
theorem c6_witness :
    0 < 4 ∧
    ((split_message ("ab cd".toList) 4).1.length ≤ 4 ∨
     ∃ f, (split_message ("ab cd".toList) 4).1 = f ++ '\n' :: fenceMarker ∧
       f.length ≤ 4) :=
  ⟨by decide, c6 ("ab cd".toList) 4 (by decide)⟩

/-! ### Lemmas for the rebalancing tag extraction -/

lemma matchesAt_cons (a : Char) (l sub : List Char) (i : Nat) :
    matchesAt (a :: l) sub (i + 1) = matchesAt l sub i := rfl

lemma fenceMarker_ne_nil : fenceMarker ≠ [] := by decide

/-- A positive fence count exhibits an occurrence of the fence marker. -/
lemma count3_pos_matchesAt {f : List Char} (h : 0 < count3 f) :
    ∃ i, matchesAt f fenceMarker i = true := by
  suffices H : ∀ n (g : List Char), g.length ≤ n → 0 < count3 g →
      ∃ i, matchesAt g fenceMarker i = true from H f.length f le_rfl h
  intro n
  induction n with
  | zero =>
    intro g hg hc
    cases g with
    | nil => simp [count3_nil] at hc
    | cons x xs => simp at hg
  | succ n ih =>
    intro g hg hc
    match g with
    | [] => simp [count3_nil] at hc
    | [a] => simp [count3_one] at hc
    | [a, b] => simp [count3_two] at hc
    | a :: b :: c :: rest =>
      rw [count3_cons3] at hc
      simp only [List.length_cons] at hg
      by_cases hco : a = btick ∧ b = btick ∧ c = btick
      · refine ⟨0, ?_⟩
        rw [matchesAt_iff]
        simp [fenceMarker, hco.1, hco.2.1, hco.2.2]
      · rw [if_neg hco] at hc
        obtain ⟨i, hi⟩ := ih (b :: c :: rest) (by simp; omega) hc
        exact ⟨i + 1, by rw [matchesAt_cons]; exact hi⟩

/-- Any occurrence of a nonempty substring makes `rfindNat` succeed. -/
lemma rfindNat_isSome {s sub : List Char} {i : Nat} (hs : sub ≠ [])
    (h : matchesAt s sub i = true) : ∃ j, rfindNat s sub = some j := by
  have hb := matchesAt_bound h hs
  have hpos : 0 < sub.length := List.length_pos.mpr hs
  have hmem : i ∈ (List.range (s.length + 1)).filter (fun k => matchesAt s sub k) := by
    rw [List.mem_filter]
    exact ⟨List.mem_range.mpr (by omega), h⟩
  have hne := List.ne_nil_of_mem hmem
  exact ⟨_, List.getLast?_eq_getLast_of_ne_nil hne⟩

/-- When `pyFindFrom` returns a nonnegative result, it is an in-range match. -/
lemma pyFindFrom_spec {s sub : List Char} {start : Int} {q : Nat}
    (h : pyFindFrom s sub start = (q : Int)) :
    q ≤ s.length ∧ matchesAt s sub q = true := by
  simp only [pyFindFrom] at h
  cases hh : ((List.range (s.length + 1)).filter
      (fun i => decide ((if start < 0 then (start + s.length).toNat
          else start.toNat) ≤ i) && matchesAt s sub i)).head? with
  | none =>
    rw [hh] at h
    simp at h
  | some j =>
    rw [hh] at h
    simp only [Nat.cast_inj] at h
    subst h
    have hmem := mem_of_head?_eq hh
    rw [List.mem_filter] at hmem
    obtain ⟨hr, hp⟩ := hmem
    rw [Bool.and_eq_true] at hp
    exact ⟨by have := List.mem_range.mp hr; omega, hp.2⟩

/-! ### Claim C7 — language-tag carry-over on fence rebalancing -/

/-- C7, counterexample.  For `("a ```bc", 6)` the hard-cut head `"a ```b"`
contains an odd number of fence markers, but the boundary refinement moves the
fence into the second part before the fence check: no closing fence is
appended to the returned first component `"a"` at all. -/
theorem c7_counterexample :
    count3 (("a ```bc".toList).take 6) % 2 = 1 ∧
    split_message ("a ```bc".toList) 6 = ("a".toList, some ("```bc".toList)) ∧
    count3 ("a".toList) = 0 := by
  decide

/-- C7, amended: the rebalancing is keyed on the REFINED first component, not
the hard-cut head.  When the refined first component has an odd fence count,
`split_message` appends `"\n```"` to it and prepends to the second component
an opening fence carrying the tag read after the LAST fence marker of the
refined first component; when a newline follows that marker at position `q`,
the tag is exactly the text strictly between the marker and that newline. -/
theorem c7_amended (message : List Char) (threshold : Nat)
    (h : threshold ≤ message.length)
    (hodd : count3 (refineSplit (message.take threshold)
      (message.drop threshold)).1 % 2 = 1) :
    ∃ (f s : List Char) (mk : Nat),
      refineSplit (message.take threshold) (message.drop threshold) = (f, s) ∧
      pyRfind f fenceMarker = (mk : Int) ∧
      matchesAt f fenceMarker mk = true ∧
      (∀ j, mk < j → matchesAt f fenceMarker j = false) ∧
      split_message message threshold =
        (f ++ '\n' :: fenceMarker,
         some ((fenceMarker ++ languageTag f) ++ '\n' :: s)) ∧
      (∀ q : Nat, pyFindFrom f ['\n'] (mk : Int) = (q : Int) →
        languageTag f = (f.take q).drop (mk + 3)) := by
  have hpos : 0 < count3 (refineSplit (message.take threshold)
      (message.drop threshold)).1 := by omega
  obtain ⟨i, hi⟩ := count3_pos_matchesAt hpos
  obtain ⟨mk, hmk⟩ := rfindNat_isSome fenceMarker_ne_nil hi
  refine ⟨(refineSplit (message.take threshold) (message.drop threshold)).1,
    (refineSplit (message.take threshold) (message.drop threshold)).2, mk,
    rfl, ?_, rfindNat_matchesAt hmk, ?_, ?_, ?_⟩
  · rw [pyRfind, hmk]
  · exact fun j hj => rfindNat_last fenceMarker_ne_nil hmk hj
  · rw [split_message_of_le h, fenceRebalance_odd hodd]
  · intro q hq
    have hmkle := rfindNat_le hmk
    have hqle := (pyFindFrom_spec hq).1
    rw [languageTag, show pyRfind (refineSplit (message.take threshold)
      (message.drop threshold)).1 fenceMarker = (mk : Int) from by rw [pyRfind, hmk],
      hq, pySlice]
    rw [show sliceIdx (refineSplit (message.take threshold)
        (message.drop threshold)).1.length (mk : Int) = mk from by
      rw [sliceIdx, if_neg (by omega)]
      simp
      omega]
    rw [show sliceIdx (refineSplit (message.take threshold)
        (message.drop threshold)).1.length (q : Int) = q from by
      rw [sliceIdx, if_neg (by omega)]
      simp
      omega]
    rw [List.drop_drop]

/-- C7 witness: the amended rebalancing statement at `("a\n```py\nb\ncodeZ", 14)`,
where the refined first component is `"a\n```py\nb"` and the tag `py` is
carried over. -/
theorem c7_amended_witness :
    14 ≤ ("a\n```py\nb\ncodeZ".toList).length ∧
    count3 (refineSplit (("a\n```py\nb\ncodeZ".toList).take 14)
      (("a\n```py\nb\ncodeZ".toList).drop 14)).1 % 2 = 1 ∧
    ∃ (f s : List Char) (mk : Nat),
      refineSplit (("a\n```py\nb\ncodeZ".toList).take 14)
        (("a\n```py\nb\ncodeZ".toList).drop 14) = (f, s) ∧
      pyRfind f fenceMarker = (mk : Int) ∧
      matchesAt f fenceMarker mk = true ∧
      (∀ j, mk < j → matchesAt f fenceMarker j = false) ∧
      split_message ("a\n```py\nb\ncodeZ".toList) 14 =
        (f ++ '\n' :: fenceMarker,
         some ((fenceMarker ++ languageTag f) ++ '\n' :: s)) ∧
      (∀ q : Nat, pyFindFrom f ['\n'] (mk : Int) = (q : Int) →
        languageTag f = (f.take q).drop (mk + 3)) :=
  ⟨by decide, by decide,
    c7_amended ("a\n```py\nb\ncodeZ".toList) 14 (by decide) (by decide)⟩

/-! ### Claim C8 — boundary marker at the start -/

/-- C8, counterexample.  For `("\nab cde", 6)` the top-priority marker `"\n"`
is located at offset `0` in the hard-cut head, yet the hard cut is NOT kept:
the search falls through to the lower-priority space at offset `3` and the cut
is refined there. -/
theorem c8_counterexample :
    rfindNat (("\nab cde".toList).take 6) ['\n'] = some 0 ∧
    split_message ("\nab cde".toList) 6 = ("\nab".toList, some ("cde".toList)) ∧
    split_message ("\nab cde".toList) 6 ≠
      (("\nab cde".toList).take 6, some (("\nab cde".toList).drop 6)) := by
  decide

/-- C8, amended: a marker located at offset `0` (or absent) is treated as not
found FOR THAT MARKER ONLY — the search continues with the lower-priority
markers, and the hard cut is kept only when none of them is found at a
positive offset.  Every separator the search does report sits at a positive
offset, and consequently `split_message` never returns an empty first
component for nonempty input and positive limit. -/
theorem c8_amended (message : List Char) (threshold : Nat)
    (h1 : message ≠ []) (h2 : 0 < threshold) :
    (split_message message threshold).1 ≠ [] ∧
    ∀ p sep, find_last_occurence (message.take threshold)
      [['\n'], ['.', ' '], [' ']] = some (p, sep) → 0 < p := by
  constructor
  · by_cases hlt : message.length < threshold
    · rw [split_message, if_pos hlt]
      exact h1
    · have hlen : 0 < message.length := by
        cases message with
        | nil => exact absurd rfl h1
        | cons x xs => simp
      rw [split_message_of_le (by omega)]
      have hf1 : (refineSplit (message.take threshold) (message.drop threshold)).1
          ≠ [] := by
        cases hflo : find_last_occurence (message.take threshold)
            [['\n'], ['.', ' '], [' ']] with
        | none =>
          rw [refineSplit_of_none hflo]
          intro hcon
          have hl := congrArg List.length hcon
          rw [List.length_take] at hl
          simp only [List.length_nil] at hl
          omega
        | some ps =>
          obtain ⟨p, sep⟩ := ps
          obtain ⟨hmem, hrf, hp⟩ := flo_spec hflo
          rw [refineSplit_of_some hflo]
          intro hcon
          have hl := congrArg List.length hcon
          rw [List.length_take, List.length_take] at hl
          have hk : 0 < (if pyIsspace sep then p else p + (pyRstrip sep).length) := by
            split
            · omega
            · omega
          simp only [List.length_nil] at hl
          omega
      by_cases hpar :
          count3 (refineSplit (message.take threshold) (message.drop threshold)).1 % 2 = 0
      · rw [fenceRebalance_even hpar]
        exact hf1
      · rw [fenceRebalance_odd (by omega)]
        simp
  · intro p sep hflo
    exact (flo_spec hflo).2.2

/-- C8 witness: the amended statement applied at `("\nab cde", 6)`. -/
theorem c8_amended_witness :
    ("\nab cde".toList ≠ []) ∧ (0 < 6) ∧
    ((split_message ("\nab cde".toList) 6).1 ≠ [] ∧
     ∀ p sep, find_last_occurence (("\nab cde".toList).take 6)
       [['\n'], ['.', ' '], [' ']] = some (p, sep) → 0 < p) :=
  ⟨by decide, by decide, c8_amended ("\nab cde".toList) 6 (by decide) (by decide)⟩

/-! ### Shape lemmas for the coordinator -/

lemma processChunk_none {m r : List Char} {ck : PyChunk} {t : Nat} {cur : List Char}
    (h : split_message (m ++ ck.content) t = (cur, none)) :
    processChunk m r ck t =
      ([⟨cur, some ck.content, r ++ ck.content, false, ck.stop, false⟩],
       m ++ ck.content, r ++ ck.content) := by
  simp only [processChunk, h]

lemma processChunk_some {m r : List Char} {ck : PyChunk} {t : Nat}
    {cur nxt : List Char}
    (h : split_message (m ++ ck.content) t = (cur, some nxt)) :
    processChunk m r ck t =
      ([⟨cur, none, r ++ ck.content, true, false, false⟩,
        ⟨nxt, some ck.content, r ++ ck.content, false, ck.stop, true⟩],
       nxt, r ++ ck.content) := by
  simp only [processChunk, h]

lemma processChunk_snd_snd (m r : List Char) (ck : PyChunk) (t : Nat) :
    (processChunk m r ck t).2.2 = r ++ ck.content := by
  cases hsp : split_message (m ++ ck.content) t with
  | mk cur snd =>
    cases snd with
    | none => rw [processChunk_none hsp]
    | some nxt => rw [processChunk_some hsp]

lemma runChunks_cons_fst (ck : PyChunk) (rest : List PyChunk) (m r : List Char)
    (t : Nat) :
    (runChunks (ck :: rest) m r t).1 =
      (processChunk m r ck t).1 ++
      (runChunks rest (processChunk m r ck t).2.1 (processChunk m r ck t).2.2 t).1 :=
  rfl

/-! ### Claim C2 — segment-finality flag -/

/-- C2, counterexample.  A single chunk `("hi", stop = true)` processed
without a split yields one event whose `end_of_message` is `false`, not the
chunk's stop flag: the stream's final event is not marked segment-final
(`end_of_response` carries the termination signal instead). -/
theorem c2_counterexample :
    get_buffered_llm_response [⟨"hi".toList, true⟩] 100 =
      [⟨"hi".toList, some ("hi".toList), "hi".toList, false, true, false⟩] := by
  decide

/-- C2, amended: when a chunk is processed without a split, the single
emitted event has `end_of_message = false` REGARDLESS of the chunk's stop
flag; the stop flag is reported in `end_of_response` only, so `end_of_message`
is true exactly on the finalize event of a crossed split boundary. -/
theorem c2_amended (m r : List Char) (ck : PyChunk) (t : Nat) (cur : List Char)
    (h : split_message (m ++ ck.content) t = (cur, none)) :
    (processChunk m r ck t).1 =
      [⟨cur, some ck.content, r ++ ck.content, false, ck.stop, false⟩] := by
  rw [processChunk_none h]

/-- C2 witness: the amended no-split event shape at a final chunk. -/
theorem c2_amended_witness :
    split_message (([] : List Char) ++ "hi".toList) 100 = ("hi".toList, none) ∧
    (processChunk [] [] ⟨"hi".toList, true⟩ 100).1 =
      [⟨"hi".toList, some ("hi".toList), "hi".toList, false, true, false⟩] :=
  ⟨by decide, c2_amended [] [] ⟨"hi".toList, true⟩ 100 ("hi".toList) (by decide)⟩

/-! ### Claim C3 — open-buffer invariant -/

/-- C3, counterexample.  One chunk of 12 characters at limit 10: after the
coordinator processes it (one split check, no repetition), the open-segment
buffer carried into the next chunk holds exactly 10 ≥ 10 characters — the
`< limit` invariant fails. -/
theorem c3_counterexample :
    (bufferState [⟨"a bbbbbbbbbb".toList, true⟩] 10).length = 10 ∧
    ¬ (bufferState [⟨"a bbbbbbbbbb".toList, true⟩] 10).length < 10 := by
  decide

/-- C3, amended: the coordinator performs the split check exactly once per
chunk; the buffer carried forward is either the whole accumulated message
(and then it holds fewer than `limit` characters) or verbatim the second
component of the single split — which may hold `limit` or more characters,
as the counterexample shows. -/
theorem c3_amended (m r : List Char) (ck : PyChunk) (t : Nat) :
    ((processChunk m r ck t).2.1 = m ++ ck.content ∧ (m ++ ck.content).length < t) ∨
    ∃ f, split_message (m ++ ck.content) t = (f, some (processChunk m r ck t).2.1) := by
  cases hsp : split_message (m ++ ck.content) t with
  | mk cur snd =>
    cases snd with
    | none =>
      left
      obtain ⟨hc, hlt⟩ := split_message_none hsp
      rw [processChunk_none hsp]
      exact ⟨rfl, hlt⟩
    | some nxt =>
      right
      rw [processChunk_some hsp]
      exact ⟨cur, rfl⟩

/-! ### Claim C10 — event-shape invariant -/

lemma c10_aux :
    ∀ (chunks : List PyChunk) (m r : List Char) (t : Nat)
      (e : LlamaResponseChunk), e ∈ (runChunks chunks m r t).1 →
      (e.end_of_message = true →
        e.chunk = none ∧ e.end_of_response = false ∧ e.new_message = false) ∧
      (e.new_message = true → e.end_of_message = false) := by
  intro chunks
  induction chunks with
  | nil =>
    intro m r t e he
    simp [runChunks] at he
  | cons ck rest ih =>
    intro m r t e he
    rw [runChunks_cons_fst] at he
    rcases List.mem_append.mp he with h1 | h2
    · cases hsp : split_message (m ++ ck.content) t with
      | mk cur snd =>
        cases snd with
        | none =>
          rw [processChunk_none hsp] at h1
          simp only [List.mem_singleton] at h1
          subst h1
          simp
        | some nxt =>
          rw [processChunk_some hsp] at h1
          simp only [List.mem_cons, List.mem_singleton, List.not_mem_nil,
            or_false] at h1
          rcases h1 with h1 | h1 <;> subst h1 <;> simp
    · exact ih _ _ t e h2

/-- C10, confirmed: in every event emitted by `get_buffered_llm_response`,
`end_of_message = true` implies the raw chunk is absent, `end_of_response` is
false and `new_message` is false; and `new_message = true` implies
`end_of_message = false`. -/
theorem c10 (chunks : List PyChunk) (t : Nat) :
    ∀ e ∈ get_buffered_llm_response chunks t,
      (e.end_of_message = true →
        e.chunk = none ∧ e.end_of_response = false ∧ e.new_message = false) ∧
      (e.new_message = true → e.end_of_message = false) :=
  fun e he => c10_aux chunks [] [] t e he

/-- C10 witness: the invariant applied to the finalize event emitted for
`("hi", stop)` at limit 2 (which forces a split). -/
theorem c10_witness :
    (((⟨"hi".toList, none, "hi".toList, true, false, false⟩ :
        LlamaResponseChunk).end_of_message = true →
      (⟨"hi".toList, none, "hi".toList, true, false, false⟩ :
        LlamaResponseChunk).chunk = none ∧
      (⟨"hi".toList, none, "hi".toList, true, false, false⟩ :
        LlamaResponseChunk).end_of_response = false ∧
      (⟨"hi".toList, none, "hi".toList, true, false, false⟩ :
        LlamaResponseChunk).new_message = false) ∧
     ((⟨"hi".toList, none, "hi".toList, true, false, false⟩ :
        LlamaResponseChunk).new_message = true →
      (⟨"hi".toList, none, "hi".toList, true, false, false⟩ :
        LlamaResponseChunk).end_of_message = false)) :=
  c10 [⟨"hi".toList, true⟩] 2
    ⟨"hi".toList, none, "hi".toList, true, false, false⟩ (by decide)

/-! ### Claim C9 — split event pair ordering and contents -/

lemma c9_aux :
    ∀ (chunks : List PyChunk) (m r : List Char) (t : Nat),
      ∃ groups : List (List LlamaResponseChunk),
        (runChunks chunks m r t).1 = groups.flatten ∧
        List.Forall₂ (fun (ck : PyChunk) (g : List LlamaResponseChunk) =>
          (∃ e, g = [e] ∧ e.chunk = some ck.content ∧ e.end_of_message = false ∧
            e.end_of_response = ck.stop ∧ e.new_message = false) ∨
          (∃ msg first second r2,
            split_message msg t = (first, some second) ∧
            g = [⟨first, none, r2, true, false, false⟩,
                 ⟨second, some ck.content, r2, false, ck.stop, true⟩]))
          chunks groups := by
  intro chunks
  induction chunks with
  | nil =>
    intro m r t
    exact ⟨[], rfl, List.Forall₂.nil⟩
  | cons ck rest ih =>
    intro m r t
    obtain ⟨gs, h1, h2⟩ := ih (processChunk m r ck t).2.1 (processChunk m r ck t).2.2 t
    refine ⟨(processChunk m r ck t).1 :: gs, ?_, List.Forall₂.cons ?_ h2⟩
    · rw [runChunks_cons_fst, h1, List.flatten_cons]
    · cases hsp : split_message (m ++ ck.content) t with
      | mk cur snd =>
        cases snd with
        | none =>
          left
          exact ⟨⟨cur, some ck.content, r ++ ck.content, false, ck.stop, false⟩,
            by rw [processChunk_none hsp], rfl, rfl, rfl, rfl⟩
        | some nxt =>
          right
          exact ⟨m ++ ck.content, cur, nxt, r ++ ck.content, hsp,
            by rw [processChunk_some hsp]⟩

/-- C9, confirmed: the event stream decomposes, in chunk order, into one group
per chunk; a chunk processed without a split contributes a single non-final
event carrying its content, and a chunk whose processing splits the buffer
contributes exactly two events in order — first the finalize event
(`message = first`, chunk absent, `end_of_message = true`,
`end_of_response = false`, `new_message = false`), then the opening event
(`message = second`, `chunk` = the incoming content, `new_message = true`). -/
theorem c9 (chunks : List PyChunk) (t : Nat) :
    ∃ groups : List (List LlamaResponseChunk),
      get_buffered_llm_response chunks t = groups.flatten ∧
      List.Forall₂ (fun (ck : PyChunk) (g : List LlamaResponseChunk) =>
        (∃ e, g = [e] ∧ e.chunk = some ck.content ∧ e.end_of_message = false ∧
          e.end_of_response = ck.stop ∧ e.new_message = false) ∨
        (∃ msg first second r2,
          split_message msg t = (first, some second) ∧
          g = [⟨first, none, r2, true, false, false⟩,
               ⟨second, some ck.content, r2, false, ck.stop, true⟩]))
        chunks groups :=
  c9_aux chunks [] [] t

/-! ### Claim C4 — exact full-response accumulation -/

lemma c4_aux_mem :
    ∀ (chunks : List PyChunk) (m r : List Char) (t : Nat)
      (e : LlamaResponseChunk), e ∈ (runChunks chunks m r t).1 →
      ∃ k, 0 < k ∧ k ≤ chunks.length ∧
        e.response = r ++ ((chunks.take k).map PyChunk.content).flatten := by
  intro chunks
  induction chunks with
  | nil =>
    intro m r t e he
    simp [runChunks] at he
  | cons ck rest ih =>
    intro m r t e he
    rw [runChunks_cons_fst] at he
    rcases List.mem_append.mp he with h1 | h2
    · refine ⟨1, by omega, by simp, ?_⟩
      cases hsp : split_message (m ++ ck.content) t with
      | mk cur snd =>
        cases snd with
        | none =>
          rw [processChunk_none hsp] at h1
          simp only [List.mem_singleton] at h1
          subst h1
          simp
        | some nxt =>
          rw [processChunk_some hsp] at h1
          simp only [List.mem_cons, List.mem_singleton, List.not_mem_nil,
            or_false] at h1
          rcases h1 with h1 | h1 <;> subst h1 <;> simp
    · obtain ⟨k, hk0, hkle, hresp⟩ := ih _ _ t e h2
      rw [processChunk_snd_snd] at hresp
      refine ⟨k + 1, by omega, by simp [hkle], ?_⟩
      rw [hresp]
      simp [List.append_assoc]

lemma c4_aux_last :
    ∀ (chunks : List PyChunk) (m r : List Char) (t : Nat), chunks ≠ [] →
      ∃ e, ((runChunks chunks m r t).1).getLast? = some e ∧
        e.response = r ++ (chunks.map PyChunk.content).flatten := by
  intro chunks
  induction chunks with
  | nil =>
    intro m r t h
    exact absurd rfl h
  | cons ck rest ih =>
    intro m r t _
    by_cases hre : rest = []
    · subst hre
      cases hsp : split_message (m ++ ck.content) t with
      | mk cur snd =>
        cases snd with
        | none =>
          refine ⟨⟨cur, some ck.content, r ++ ck.content, false, ck.stop, false⟩,
            ?_, by simp⟩
          rw [runChunks_cons_fst, processChunk_none hsp]
          simp [runChunks]
        | some nxt =>
          refine ⟨⟨nxt, some ck.content, r ++ ck.content, false, ck.stop, true⟩,
            ?_, by simp⟩
          rw [runChunks_cons_fst, processChunk_some hsp]
          simp [runChunks]
    · obtain ⟨e, hlast, hresp⟩ :=
        ih (processChunk m r ck t).2.1 (processChunk m r ck t).2.2 t hre
      refine ⟨e, ?_, ?_⟩
      · rw [runChunks_cons_fst]
        rw [List.getLast?_append_of_ne_nil _ (fun hnil => by
          rw [hnil] at hlast
          simp at hlast)]
        exact hlast
      · rw [hresp, processChunk_snd_snd]
        simp [List.append_assoc]

lemma c4_aux_groups :
    ∀ (chunks : List PyChunk) (m r : List Char) (t : Nat),
      ∃ groups : List (List LlamaResponseChunk),
        (runChunks chunks m r t).1 = groups.flatten ∧
        groups.length = chunks.length ∧
        ∀ i (hi : i < groups.length), ∀ e ∈ groups[i],
          e.response = r ++ ((chunks.take (i + 1)).map PyChunk.content).flatten := by
  intro chunks
  induction chunks with
  | nil =>
    intro m r t
    exact ⟨[], rfl, rfl, fun i hi => absurd hi (by simp)⟩
  | cons ck rest ih =>
    intro m r t
    obtain ⟨gs, h1, h2, h3⟩ := ih (processChunk m r ck t).2.1 (processChunk m r ck t).2.2 t
    refine ⟨(processChunk m r ck t).1 :: gs, ?_, by simp [h2], ?_⟩
    · rw [runChunks_cons_fst, h1, List.flatten_cons]
    · intro i hi e he
      cases i with
      | zero =>
        simp only [List.getElem_cons_zero] at he
        cases hsp : split_message (m ++ ck.content) t with
        | mk cur snd =>
          cases snd with
          | none =>
            rw [processChunk_none hsp] at he
            simp only [List.mem_singleton] at he
            subst he
            simp
          | some nxt =>
            rw [processChunk_some hsp] at he
            simp only [List.mem_cons, List.mem_singleton, List.not_mem_nil,
              or_false] at he
            rcases he with he | he <;> subst he <;> simp
      | succ i =>
        simp only [List.getElem_cons_succ] at he
        have hi' : i < gs.length := by
          simp only [List.length_cons] at hi
          omega
        have hresp := h3 i hi' e he
        rw [processChunk_snd_snd] at hresp
        rw [hresp]
        simp [List.append_assoc]

lemma c4_aux_pairwise :
    ∀ (chunks : List PyChunk) (m r : List Char) (t : Nat),
      List.Pairwise (fun e1 e2 => ∃ u, e2.response = e1.response ++ u)
        (runChunks chunks m r t).1 := by
  intro chunks
  induction chunks with
  | nil =>
    intro m r t
    exact List.Pairwise.nil
  | cons ck rest ih =>
    intro m r t
    rw [runChunks_cons_fst, List.pairwise_append]
    refine ⟨?_, ih _ _ t, ?_⟩
    · cases hsp : split_message (m ++ ck.content) t with
      | mk cur snd =>
        cases snd with
        | none =>
          rw [processChunk_none hsp]
          simp
        | some nxt =>
          rw [processChunk_some hsp]
          refine List.Pairwise.cons (fun b hb => ?_) (by simp)
          simp only [List.mem_singleton] at hb
          subst hb
          exact ⟨[], by simp⟩
    · intro a ha b hb
      have hra : a.response = r ++ ck.content := by
        cases hsp : split_message (m ++ ck.content) t with
        | mk cur snd =>
          cases snd with
          | none =>
            rw [processChunk_none hsp] at ha
            simp only [List.mem_singleton] at ha
            subst ha
            rfl
          | some nxt =>
            rw [processChunk_some hsp] at ha
            simp only [List.mem_cons, List.mem_singleton, List.not_mem_nil,
              or_false] at ha
            rcases ha with ha | ha <;> subst ha <;> rfl
      obtain ⟨k, _, _, hrb⟩ := c4_aux_mem rest _ _ t b hb
      rw [processChunk_snd_snd] at hrb
      exact ⟨((rest.take k).map PyChunk.content).flatten,
        by rw [hrb, hra, List.append_assoc]⟩

/-- C4, confirmed: the event stream decomposes, in chunk order, into one group
of events per chunk, and every event emitted while processing chunk `i`
carries `response` equal to the exact concatenation of the contents of chunks
`0..i` — the chunks received so far at that event's position; the responses
grow monotonically (every later event's `response` extends every earlier
one's), and the last emitted event's `response` is the concatenation of ALL
chunk contents — the full response, independent of how it was partitioned
into chunks. -/
theorem c4 (chunks : List PyChunk) (t : Nat) :
    (∃ groups : List (List LlamaResponseChunk),
      get_buffered_llm_response chunks t = groups.flatten ∧
      groups.length = chunks.length ∧
      ∀ i (hi : i < groups.length), ∀ e ∈ groups[i],
        e.response = ((chunks.take (i + 1)).map PyChunk.content).flatten) ∧
    List.Pairwise (fun e1 e2 => ∃ u, e2.response = e1.response ++ u)
      (get_buffered_llm_response chunks t) ∧
    (chunks ≠ [] →
      ∃ e, (get_buffered_llm_response chunks t).getLast? = some e ∧
        e.response = (chunks.map PyChunk.content).flatten) := by
  refine ⟨?_, c4_aux_pairwise chunks [] [] t, ?_⟩
  · obtain ⟨gs, h1, h2, h3⟩ := c4_aux_groups chunks [] [] t
    exact ⟨gs, h1, h2, fun i hi e he => by simpa using h3 i hi e he⟩
  · intro hne
    obtain ⟨e, h1, h2⟩ := c4_aux_last chunks [] [] t hne
    exact ⟨e, h1, by simpa using h2⟩

/-- C4 witness: accumulation applied to a concrete two-chunk stream. -/
theorem c4_witness :
    [(⟨"ab ".toList, false⟩ : PyChunk), ⟨"cd".toList, true⟩] ≠ [] ∧
    ∃ e, (get_buffered_llm_response
        [⟨"ab ".toList, false⟩, ⟨"cd".toList, true⟩] 100).getLast? = some e ∧
      e.response = (([⟨"ab ".toList, false⟩, ⟨"cd".toList, true⟩] :
        List PyChunk).map PyChunk.content).flatten :=
  ⟨by decide,
    (c4 [⟨"ab ".toList, false⟩, ⟨"cd".toList, true⟩] 100).2.2 (by decide)⟩

end Unllamabot
